import Mathlib

/-
  Verification of the five-step migration workflow state store
  (`src/webui/src/app/services/migration-state.service.ts`) and of the
  simulated progress-tracking service (`ProgressServiceMVP`,
  `src/unnamed/part_003`) of the bluesky-social-migrator repository.

  Modelling notes.
  * Machine state: the service keeps a `BehaviorSubject<MigrationState>`;
    we model its complete emission history as a list `trace` (newest
    first); the subject's current value is the head, and a "commit /
    notification" is exactly a prepending to the trace.
  * `updateState` compares `JSON.stringify(currentState)` with
    `JSON.stringify(newState)`.  Every field reachable by the store's
    public operations holds JSON-serializable data (numbers, strings,
    booleans, null, arrays thereof), and on that domain stringify
    equality coincides with structural equality, so the gate is modelled
    as decidable structural equality of states.
  * Step payloads (`data: any`) are modelled by a type `JsonVal` of
    JSON-serializable atoms with decidable (structural) equality; `jnull`
    is the JavaScript `null` stored in every fresh step.  In
    `updateStepData` the source tests `updatedSteps[stepIndex].data !== data`
    (reference inequality) before calling `updateState`, whose own
    structural gate then discards a structurally-equal replacement, so
    reference inequality followed by the structural gate is observably
    equivalent to the structural test used here.
  * Sentry breadcrumbs/telemetry and the `stepStartTimes` performance map
    touch no observable workflow state and are not modelled.
-/

namespace Migration

/-- JSON-serializable payload values handed to `updateStepData`
(`data: any` in `StepState`); `jnull` is the JavaScript `null`. -/
inductive JsonVal where
  | jnull
  | jbool (b : Bool)
  | jnum (n : Int)
  | jstr (s : String)
deriving DecidableEq

/-- `'image' | 'video'` from the `Media` interface. -/
inductive MediaType where
  | image
  | video
deriving DecidableEq

/-- The `Media` interface of `migration-state.interface.ts`. -/
structure Media where
  id : String
  type : MediaType
  url : String
  filename : String
  size : Int
  mimeType : String
deriving DecidableEq

/-- The `InstagramPost` interface (Date modelled as an integer timestamp). -/
structure InstagramPost where
  id : String
  caption : String
  media : List Media
  timestamp : Int
  likes : Int
  comments : Int
deriving DecidableEq

/-- The `ProcessedMedia` interface. -/
structure ProcessedMedia where
  id : String
  originalMedia : Media
  processedUrl : String
  size : Int
  type : MediaType
deriving DecidableEq

/-- The `ProcessedPost` interface. -/
structure ProcessedPost where
  id : String
  originalPost : InstagramPost
  content : String
  media : List ProcessedMedia
  estimatedTime : Int
deriving DecidableEq

/-- `'idle' | 'starting' | 'processing' | 'completed' | 'error'`. -/
inductive ProgressStatus where
  | idle
  | starting
  | processing
  | completed
  | error
deriving DecidableEq

/-- The `MigrationProgress` interface. -/
structure MigrationProgress where
  currentPost : Int
  totalPosts : Int
  currentMedia : Int
  totalMedia : Int
  status : ProgressStatus
  estimatedTimeRemaining : String
  currentOperation : Option String := none
deriving DecidableEq

/-- `'low' | 'medium' | 'high'`. -/
inductive MediaQuality where
  | low
  | medium
  | high
deriving DecidableEq

/-- The `MigrationConfig` interface (Dates as integer timestamps). -/
structure MigrationConfig where
  includeLikes : Bool
  includeComments : Bool
  dateRangeStart : Option Int
  dateRangeEnd : Option Int
  mediaQuality : MediaQuality
  batchSize : Int
deriving DecidableEq

/-- `'validation' | 'network' | 'authentication' | 'processing'`. -/
inductive MigrationErrorType where
  | validation
  | network
  | authentication
  | processing
deriving DecidableEq

/-- The `MigrationError` interface. -/
structure MigrationError where
  id : String
  type : MigrationErrorType
  message : String
  step : Int
  recoverable : Bool
  timestamp : Int
deriving DecidableEq

/-- The `StepState` interface: one entry of the five-step wizard. -/
structure StepState where
  id : String
  completed : Bool
  data : JsonVal
  errors : List String
  warnings : List String
  progress : Int
deriving DecidableEq

/-- The `MigrationState` interface: the full workflow state. -/
structure MigrationState where
  currentStep : Int
  steps : List StepState
  instagramData : List InstagramPost
  processedPosts : List ProcessedPost
  blueskyClient : Option JsonVal
  migrationConfig : MigrationConfig
  progress : MigrationProgress
  errors : List MigrationError
deriving DecidableEq

/-- `getInitialState()` of `MigrationStateService`, literally. -/
def getInitialState : MigrationState where
  currentStep := 0
  steps :=
    [ { id := "content-upload", completed := false, data := .jnull
      , errors := [], warnings := [], progress := 0 }
    , { id := "bluesky-auth", completed := false, data := .jnull
      , errors := [], warnings := [], progress := 0 }
    , { id := "migration-config", completed := false, data := .jnull
      , errors := [], warnings := [], progress := 0 }
    , { id := "migration-execution", completed := false, data := .jnull
      , errors := [], warnings := [], progress := 0 }
    , { id := "completion", completed := false, data := .jnull
      , errors := [], warnings := [], progress := 0 } ]
  instagramData := []
  processedPosts := []
  blueskyClient := none
  migrationConfig :=
    { includeLikes := true, includeComments := true
    , dateRangeStart := none, dateRangeEnd := none
    , mediaQuality := .medium, batchSize := 10 }
  progress :=
    { currentPost := 0, totalPosts := 0, currentMedia := 0, totalMedia := 0
    , status := .idle, estimatedTimeRemaining := "0m" }
  errors := []

/-- The service's observable machine state: the `BehaviorSubject`'s full
emission history (`trace`, newest first; the current value is the head)
together with the `stepDataCache` map used by `updateStepData`. -/
structure Store where
  trace : List MigrationState
  stepDataCache : Int → Option JsonVal

/-- A freshly constructed service: the subject starts at
`getInitialState()` and the cache is empty. -/
def initStore : Store where
  trace := [getInitialState]
  stepDataCache := fun _ => none

/-- `stateSubject.value`: the current (most recently committed) state. -/
def current (s : Store) : MigrationState :=
  s.trace.headD getInitialState

/-- `updateState(newState)`: commits (emits on the subject) only when the
new state structurally differs from the current one (the source compares
`JSON.stringify` images, which on this JSON-safe state space is
structural equality). -/
def updateState (newState : MigrationState) (s : Store) : Store :=
  if current s = newState then s
  else { s with trace := newState :: s.trace }

/-- `state.steps[i]` for a JavaScript index `i` (undefined off either
end of the array). -/
def stepAt (st : MigrationState) (i : Int) : Option StepState :=
  if i < 0 then none else st.steps[i.toNat]?

/-- `canProceedToNextStep(i)`: `steps[i]?.completed || false`. -/
def canProceedToNextStep (st : MigrationState) (i : Int) : Bool :=
  (stepAt st i).elim false (·.completed)

/-- The public mutating operations of `MigrationStateService`. -/
inductive Op where
  | nextStepOp
  | previousStepOp
  | updateStepDataOp (i : Int) (d : JsonVal)
  | completeStepOp (i : Int)
  | updateStepProgressOp (i : Int) (p : Int)
  | addStepErrorOp (i : Int) (m : String)
  | addStepWarningOp (i : Int) (m : String)
  | resetStateOp
deriving DecidableEq

/-- The guarded candidate state each operation hands to `updateState`
(`none` when the operation's own precondition fails and `updateState` is
not called at all).  Each case is a literal transcription of the body of
the corresponding service method. -/
def stepCandidate (cache : Int → Option JsonVal) (st : MigrationState) :
    Op → Option MigrationState
  | .nextStepOp =>
      if canProceedToNextStep st st.currentStep then
        some { st with currentStep := st.currentStep + 1 }
      else none
  | .previousStepOp =>
      if st.currentStep > 0 then
        some { st with currentStep := st.currentStep - 1 }
      else none
  | .updateStepDataOp i d =>
      if cache i = some d then none
      else
        match stepAt st i with
        | some step =>
            if step.data ≠ d then
              some { st with steps := st.steps.set i.toNat { step with data := d } }
            else none
        | none => none
  | .completeStepOp i =>
      match stepAt st i with
      | some step =>
          if step.completed then none
          else some { st with steps := st.steps.set i.toNat { step with completed := true } }
      | none => none
  | .updateStepProgressOp i p =>
      match stepAt st i with
      | some step =>
          if step.progress ≠ p then
            some { st with steps := st.steps.set i.toNat { step with progress := p } }
          else none
      | none => none
  | .addStepErrorOp i m =>
      match stepAt st i with
      | some step =>
          if m ∈ step.errors then none
          else some { st with steps := st.steps.set i.toNat { step with errors := step.errors ++ [m] } }
      | none => none
  | .addStepWarningOp i m =>
      match stepAt st i with
      | some step =>
          if m ∈ step.warnings then none
          else some { st with steps := st.steps.set i.toNat { step with warnings := step.warnings ++ [m] } }
      | none => none
  | .resetStateOp => some getInitialState

/-- How each operation changes `stepDataCache`: `updateStepData` caches
the payload after its stringify test passes, `resetState` clears the
cache, nothing else touches it. -/
def cacheAfter (cache : Int → Option JsonVal) : Op → (Int → Option JsonVal)
  | .updateStepDataOp i d =>
      if cache i = some d then cache
      else fun j => if j = i then some d else cache j
  | .resetStateOp => fun _ => none
  | _ => cache

/-- One public operation applied to the store: update the cache, then
commit the guarded candidate (if any) through `updateState`. -/
def applyOp (op : Op) (s : Store) : Store :=
  let s' : Store := { s with stepDataCache := cacheAfter s.stepDataCache op }
  match stepCandidate s.stepDataCache (current s) op with
  | some n => updateState n s'
  | none => s'

/-- A sequence of public operations run left to right. -/
def runOps (ops : List Op) (s : Store) : Store :=
  ops.foldl (fun acc op => applyOp op acc) s

/-- `nextStep()` (the spec's `advance()`). -/
def nextStep (s : Store) : Store := applyOp .nextStepOp s

/-- `previousStep()` (the spec's `retreat()`). -/
def previousStep (s : Store) : Store := applyOp .previousStepOp s

/-- `updateStepData(i, data)` (the spec's `setStepData`). -/
def updateStepData (i : Int) (d : JsonVal) (s : Store) : Store :=
  applyOp (.updateStepDataOp i d) s

/-- `completeStep(i)`. -/
def completeStep (i : Int) (s : Store) : Store := applyOp (.completeStepOp i) s

/-- `updateStepProgress(i, p)` (the spec's `setStepProgress`). -/
def updateStepProgress (i : Int) (p : Int) (s : Store) : Store :=
  applyOp (.updateStepProgressOp i p) s

/-- `addStepError(i, m)`. -/
def addStepError (i : Int) (m : String) (s : Store) : Store :=
  applyOp (.addStepErrorOp i m) s

/-- `addStepWarning(i, m)`. -/
def addStepWarning (i : Int) (m : String) (s : Store) : Store :=
  applyOp (.addStepWarningOp i m) s

/-- `resetState()` (the spec's `reset()`). -/
def resetState (s : Store) : Store := applyOp .resetStateOp s

/-- `getCurrentState()` / the spec's `snapshot()`. -/
def getCurrentState (s : Store) : MigrationState := current s

/-- The inductive invariant behind C3: index in range and the step array
never resized. -/
def IndexOK (st : MigrationState) : Prop :=
  0 ≤ st.currentStep ∧ st.currentStep ≤ 5 ∧ st.steps.length = 5

/-- In-range discipline on the arguments of `updateStepProgress`
(the spec's declared input domain `0..100`). -/
def progressArgOk : Op → Bool
  | .updateStepProgressOp _ p => decide (0 ≤ p) && decide (p ≤ 100)
  | _ => true

/-- The step part of the `state$` comparator:
`prev.steps.every((step, index) => step.completed === curr.steps[index]?.completed)`,
an index-tracking traversal of `prev`'s steps (a missing
`curr.steps[index]` compares as `undefined`, i.e. unequal). -/
def navStepsOk (curr : List StepState) : Nat → List StepState → Bool
  | _, [] => true
  | i, step :: rest =>
    (match curr[i]? with
     | some c => step.completed == c.completed
     | none => false) && navStepsOk curr (i + 1) rest

/-- The `distinctUntilChanged` comparator of `state$`: the new snapshot
is suppressed when the current step index and every step's completion
flag are unchanged. -/
def navSuppress (prev curr : MigrationState) : Bool :=
  prev.currentStep == curr.currentStep && navStepsOk curr.steps 0 prev.steps

/-- `distinctUntilChanged` after the replayed first element: each
incoming snapshot is compared against the last one actually delivered. -/
def deliverAux (last : MigrationState) : List MigrationState → List MigrationState
  | [] => []
  | x :: xs => if navSuppress last x then deliverAux last xs else x :: deliverAux x xs

/-- What a subscriber of `state$` receives from the raw subject emission
list (oldest first, the head being the `BehaviorSubject` replay, always
passed through). -/
def deliver : List MigrationState → List MigrationState
  | [] => []
  | x :: xs => x :: deliverAux x xs

/-- The raw subject emissions seen by an observer that subscribes at
store `s` and then watches the operations `ops` run: the replayed
current snapshot followed by every commit, in commit order. -/
def emissionsAfter (s : Store) (ops : List Op) : List MigrationState :=
  ((runOps ops s).trace.reverse).drop (s.trace.length - 1)

/-- Modelled from the claim's words, for comparison with `deliver`: the
navigation projection of a snapshot — current step index together with
the per-step completion flags. -/
def navProj (st : MigrationState) : Int × List Bool :=
  (st.currentStep, st.steps.map (·.completed))

/-- Modelled from the claim's words, for comparison with `deliver`: keep
exactly the snapshots whose navigation projection differs from their
immediate predecessor's. -/
def navChanges (prev : MigrationState) : List MigrationState → List MigrationState
  | [] => []
  | x :: xs => if navProj x = navProj prev then navChanges x xs else x :: navChanges x xs

/-- Modelled from the claim's words: the replayed head followed by the
navigation-changing commits. -/
def navDelivered : List MigrationState → List MigrationState
  | [] => []
  | x :: xs => x :: navChanges x xs

/-- A walk of two step lists in lockstep, the drop-free core of
`navStepsOk` (proof device). -/
def navStepsOk0 : List StepState → List StepState → Bool
  | _, [] => true
  | [], _ :: _ => false
  | c :: cs, step :: rest => (step.completed == c.completed) && navStepsOk0 cs rest

/-- The `ProgressServiceMVP` subject's initial (idle) value. -/
def initialProgress : MigrationProgress :=
  { currentPost := 0, totalPosts := 0, currentMedia := 0, totalMedia := 0
  , status := .idle, estimatedTimeRemaining := "0m" }

/-- `calculateRemainingTime(currentPost, totalPosts)`: two minutes per
remaining post, rendered as hours and minutes.  Every reachable call has
`currentPost < totalPosts`, where Lean's integer division/remainder
agree with the JavaScript `Math.floor` and `%` on the non-negative
operands involved. -/
def calculateRemainingTime (currentPost totalPosts : Int) : String :=
  let remainingPosts := totalPosts - currentPost
  let remainingMinutes := remainingPosts * 2
  let hours := remainingMinutes / 60
  let minutes := remainingMinutes % 60
  s!"{hours}h {minutes}m"

/-- `simulatePostProcessing(post, postIndex, totalPosts, totalMedia)`:
the single snapshot it pushes, reading the previous subject value
`prev` for the running media counter (its random delay is timing only
and does not affect the emitted values). -/
def simulatePostProcessing (post : ProcessedPost) (postIndex totalPosts totalMedia : Int)
    (prev : MigrationProgress) : MigrationProgress :=
  { currentPost := postIndex + 1
  , totalPosts := totalPosts
  , currentMedia := prev.currentMedia + post.media.length
  , totalMedia := totalMedia
  , status := .processing
  , estimatedTimeRemaining := calculateRemainingTime postIndex totalPosts }

/-- The `for` loop of `startMigration`: one `simulatePostProcessing`
emission per post, each one reading the previous emission as the
subject's value. -/
def processLoop (totalPosts totalMedia : Int) :
    List ProcessedPost → Int → MigrationProgress → List MigrationProgress
  | [], _, _ => []
  | post :: rest, i, prev =>
    let snap := simulatePostProcessing post i totalPosts totalMedia prev
    snap :: processLoop totalPosts totalMedia rest (i + 1) snap

/-- `startMigration(posts)`: the snapshots pushed on `progressSubject`,
in order — one `starting` snapshot, one `processing` snapshot per post,
and a final `completed` snapshot. -/
def startMigrationEmits (posts : List ProcessedPost) : List MigrationProgress :=
  let totalPosts : Int := posts.length
  let totalMedia : Int := posts.foldl (fun sum post => sum + post.media.length) 0
  let startSnap : MigrationProgress :=
    { currentPost := 0, totalPosts := totalPosts, currentMedia := 0, totalMedia := totalMedia
    , status := .starting, estimatedTimeRemaining := "0m" }
  startSnap :: processLoop totalPosts totalMedia posts 0 startSnap ++
    [{ currentPost := totalPosts, totalPosts := totalPosts, currentMedia := totalMedia
     , totalMedia := totalMedia, status := .completed, estimatedTimeRemaining := "0m" }]

/-- The full progress sequence a subscriber of `progress$` observes when
`startMigration(posts)` runs on a fresh service: the replayed idle
snapshot followed by every pushed snapshot. -/
def migrationTrace (posts : List ProcessedPost) : List MigrationProgress :=
  initialProgress :: startMigrationEmits posts

/-- Proof device naming `startMigration`'s local `totalMedia`. -/
def totalMediaOf (posts : List ProcessedPost) : Int :=
  posts.foldl (fun sum post => sum + post.media.length) 0

/-- Proof device naming the `starting` snapshot of `startMigration`. -/
def startSnap (posts : List ProcessedPost) : MigrationProgress :=
  { currentPost := 0, totalPosts := (posts.length : Int), currentMedia := 0
  , totalMedia := totalMediaOf posts, status := .starting
  , estimatedTimeRemaining := "0m" }

/-- Proof device naming the final `completed` snapshot of
`startMigration`. -/
def completedSnap (posts : List ProcessedPost) : MigrationProgress :=
  { currentPost := (posts.length : Int), totalPosts := (posts.length : Int)
  , currentMedia := totalMediaOf posts, totalMedia := totalMediaOf posts
  , status := .completed, estimatedTimeRemaining := "0m" }

/-- Proof device naming the per-post emission block of `startMigration`. -/
def processBody (posts : List ProcessedPost) : List MigrationProgress :=
  processLoop (posts.length : Int) (totalMediaOf posts) posts 0 (startSnap posts)

/-- A concrete one-media-free prepared post, used to exercise the
progress service on concrete input. -/
def samplePost : ProcessedPost :=
  { id := "p1"
  , originalPost :=
    { id := "ig1", caption := "c", media := [], timestamp := 0
    , likes := 0, comments := 0 }
  , content := "c", media := [], estimatedTime := 2 }

/-! ### Basic lemmas about `updateState`, `applyOp` and `runOps` -/

theorem runOps_nil (s : Store) : runOps [] s = s := rfl

theorem runOps_cons (op : Op) (ops : List Op) (s : Store) :
    runOps (op :: ops) s = runOps ops (applyOp op s) := rfl

theorem runOps_append (l₁ l₂ : List Op) (s : Store) :
    runOps (l₁ ++ l₂) s = runOps l₂ (runOps l₁ s) :=
  List.foldl_append _ _ _ _

theorem applyOp_none {op : Op} {s : Store}
    (h : stepCandidate s.stepDataCache (current s) op = none) :
    applyOp op s = { s with stepDataCache := cacheAfter s.stepDataCache op } := by
  unfold applyOp
  rw [h]

theorem applyOp_some {op : Op} {s : Store} {n : MigrationState}
    (h : stepCandidate s.stepDataCache (current s) op = some n) :
    applyOp op s = updateState n { s with stepDataCache := cacheAfter s.stepDataCache op } := by
  unfold applyOp
  rw [h]

theorem updateState_of_eq {n : MigrationState} {s : Store} (h : current s = n) :
    updateState n s = s := by
  simp [updateState, h]

theorem updateState_of_ne {n : MigrationState} {s : Store} (h : current s ≠ n) :
    updateState n s = { s with trace := n :: s.trace } := by
  simp [updateState, h]

theorem current_updateState_of_ne {n : MigrationState} {s : Store} (h : current s ≠ n) :
    current (updateState n s) = n := by
  simp [updateState_of_ne h, current]

/-- Whatever the operation, the emission history is either untouched or
extended by exactly one state, namely the operation's guarded candidate,
and only when that candidate differs from the current state. -/
theorem applyOp_trace (op : Op) (s : Store) :
    (applyOp op s).trace = s.trace ∨
    ∃ n, stepCandidate s.stepDataCache (current s) op = some n ∧
      (applyOp op s).trace = n :: s.trace ∧ current s ≠ n := by
  unfold applyOp
  cases h : stepCandidate s.stepDataCache (current s) op with
  | none => exact Or.inl rfl
  | some n =>
    by_cases hc : current s = n
    · exact Or.inl (by simp [updateState, show current { s with stepDataCache := cacheAfter s.stepDataCache op } = current s from rfl, hc])
    · exact Or.inr ⟨n, rfl, by simp [updateState, show current { s with stepDataCache := cacheAfter s.stepDataCache op } = current s from rfl, hc], hc⟩

theorem current_applyOp_of {P : MigrationState → Prop} {op : Op} {s : Store}
    (hP : P (current s))
    (h : ∀ n, stepCandidate s.stepDataCache (current s) op = some n → P n) :
    P (current (applyOp op s)) := by
  unfold applyOp
  cases hc : stepCandidate s.stepDataCache (current s) op with
  | none => exact hP
  | some n =>
    show P (current (updateState n { s with stepDataCache := cacheAfter s.stepDataCache op }))
    by_cases he : current { s with stepDataCache := cacheAfter s.stepDataCache op } = n
    · rw [updateState_of_eq he]
      exact hP
    · rw [current_updateState_of_ne he]
      exact h n hc

/-- Induction principle: a property of the current state preserved by
every guarded candidate of every operation in the list is preserved by
running the list. -/
theorem runOps_current_inv {P : MigrationState → Prop} (ops : List Op) (s : Store)
    (hP : P (current s))
    (h : ∀ cache st op, op ∈ ops → P st →
      ∀ n, stepCandidate cache st op = some n → P n) :
    P (current (runOps ops s)) := by
  induction ops generalizing s with
  | nil => exact hP
  | cons op ops ih =>
    rw [runOps_cons]
    exact ih _ (current_applyOp_of hP (fun n hn => h _ _ op (by simp) hP n hn))
      (fun cache st op' hop' => h cache st op' (by simp [hop']))

theorem trace_ne_nil_applyOp {op : Op} {s : Store} (h : s.trace ≠ []) :
    (applyOp op s).trace ≠ [] := by
  rcases applyOp_trace op s with ht | ⟨n, _, ht, _⟩ <;> simp [ht, h]

theorem current_mem_trace {s : Store} (h : s.trace ≠ []) : current s ∈ s.trace := by
  cases ht : s.trace with
  | nil => exact absurd ht h
  | cons a l => simp [current, ht]

/-- Induction principle over every state ever emitted (the whole trace). -/
theorem runOps_trace_inv {P : MigrationState → Prop} (ops : List Op) (s : Store)
    (hne : s.trace ≠ []) (hP : ∀ st ∈ s.trace, P st)
    (h : ∀ cache st op, op ∈ ops → P st →
      ∀ n, stepCandidate cache st op = some n → P n) :
    (runOps ops s).trace ≠ [] ∧ ∀ st ∈ (runOps ops s).trace, P st := by
  induction ops generalizing s with
  | nil => exact ⟨hne, hP⟩
  | cons op ops ih =>
    rw [runOps_cons]
    refine ih _ (trace_ne_nil_applyOp hne) ?_
      (fun cache st op' hop' => h cache st op' (by simp [hop']))
    rcases applyOp_trace op s with ht | ⟨n, hcand, ht, _⟩
    · intro st hst; exact hP st (ht ▸ hst)
    · intro st hst
      rw [ht] at hst
      rcases List.mem_cons.mp hst with rfl | hst
      · exact h _ _ op (by simp) (hP _ (current_mem_trace hne)) st hcand
      · exact hP st hst

/-- No operation ever appends a state equal to the one before it: the
emission history never repeats consecutively. -/
theorem runOps_chain (ops : List Op) (s : Store)
    (hne : s.trace ≠ []) (hc : s.trace.Chain' (· ≠ ·)) :
    (runOps ops s).trace ≠ [] ∧ (runOps ops s).trace.Chain' (· ≠ ·) := by
  induction ops generalizing s with
  | nil => exact ⟨hne, hc⟩
  | cons op ops ih =>
    rw [runOps_cons]
    refine ih _ (trace_ne_nil_applyOp hne) ?_
    rcases applyOp_trace op s with ht | ⟨n, _, ht, hcur⟩
    · exact ht ▸ hc
    · rw [ht]
      cases htr : s.trace with
      | nil => exact absurd htr hne
      | cons a l =>
        rw [htr] at hc
        refine List.chain'_cons.mpr ⟨?_, hc⟩
        have hca : current s = a := by simp [current, htr]
        exact fun hna => hcur (by rw [hca, hna])

/-! ### Characterization of the guarded candidates -/

theorem stepAt_get {st : MigrationState} {i : Int} {step : StepState}
    (h : stepAt st i = some step) : st.steps[i.toNat]? = some step := by
  unfold stepAt at h
  split at h
  · exact absurd h (by simp)
  · exact h

theorem stepAt_some {st : MigrationState} {i : Int} {step : StepState}
    (h : stepAt st i = some step) : 0 ≤ i ∧ i.toNat < st.steps.length := by
  unfold stepAt at h
  split at h
  · exact absurd h (by simp)
  · rename_i hi
    exact ⟨by omega, (List.getElem?_eq_some.mp h).1⟩

theorem stepAt_eq_get {st : MigrationState} {i : Int} (h : 0 ≤ i) :
    stepAt st i = st.steps[i.toNat]? := by
  unfold stepAt
  simp [show ¬ i < 0 by omega]

theorem canProceed_iff (st : MigrationState) (i : Int) :
    canProceedToNextStep st i = true ↔
      ∃ step, stepAt st i = some step ∧ step.completed = true := by
  unfold canProceedToNextStep
  cases h : stepAt st i <;> simp

/-- Full characterization of `stepCandidate`: the state an operation
hands to `updateState`, together with the precondition that made the
operation act. -/
theorem stepCandidate_shape {cache : Int → Option JsonVal} {st : MigrationState}
    {op : Op} {n : MigrationState} (h : stepCandidate cache st op = some n) :
    (op = .nextStepOp ∧ canProceedToNextStep st st.currentStep = true ∧
      n = { st with currentStep := st.currentStep + 1 }) ∨
    (op = .previousStepOp ∧ st.currentStep > 0 ∧
      n = { st with currentStep := st.currentStep - 1 }) ∨
    (∃ i step, stepAt st i = some step ∧
      ((∃ d, op = .updateStepDataOp i d ∧ step.data ≠ d ∧
          n = { st with steps := st.steps.set i.toNat { step with data := d } }) ∨
       (op = .completeStepOp i ∧ step.completed = false ∧
          n = { st with steps := st.steps.set i.toNat { step with completed := true } }) ∨
       (∃ p, op = .updateStepProgressOp i p ∧ step.progress ≠ p ∧
          n = { st with steps := st.steps.set i.toNat { step with progress := p } }) ∨
       (∃ m, op = .addStepErrorOp i m ∧ m ∉ step.errors ∧
          n = { st with steps := st.steps.set i.toNat { step with errors := step.errors ++ [m] } }) ∨
       (∃ m, op = .addStepWarningOp i m ∧ m ∉ step.warnings ∧
          n = { st with steps := st.steps.set i.toNat { step with warnings := step.warnings ++ [m] } }))) ∨
    (op = .resetStateOp ∧ n = getInitialState) := by
  cases op with
  | nextStepOp =>
    simp only [stepCandidate] at h
    split at h
    · exact Or.inl ⟨rfl, by assumption, (Option.some.inj h).symm⟩
    · exact absurd h (by simp)
  | previousStepOp =>
    simp only [stepCandidate] at h
    split at h
    · exact Or.inr (Or.inl ⟨rfl, by assumption, (Option.some.inj h).symm⟩)
    · exact absurd h (by simp)
  | updateStepDataOp i d =>
    simp only [stepCandidate] at h
    split at h
    · exact absurd h (by simp)
    · split at h
      · rename_i step hst
        split at h
        · rename_i hd
          exact Or.inr (Or.inr (Or.inl ⟨i, step, hst,
            Or.inl ⟨d, rfl, hd, (Option.some.inj h).symm⟩⟩))
        · exact absurd h (by simp)
      · exact absurd h (by simp)
  | completeStepOp i =>
    simp only [stepCandidate] at h
    split at h
    · rename_i step hst
      split at h
      · exact absurd h (by simp)
      · rename_i hcomp
        exact Or.inr (Or.inr (Or.inl ⟨i, step, hst,
          Or.inr (Or.inl ⟨rfl, by simpa using hcomp, (Option.some.inj h).symm⟩)⟩))
    · exact absurd h (by simp)
  | updateStepProgressOp i p =>
    simp only [stepCandidate] at h
    split at h
    · rename_i step hst
      split at h
      · rename_i hp
        exact Or.inr (Or.inr (Or.inl ⟨i, step, hst,
          Or.inr (Or.inr (Or.inl ⟨p, rfl, hp, (Option.some.inj h).symm⟩))⟩))
      · exact absurd h (by simp)
    · exact absurd h (by simp)
  | addStepErrorOp i m =>
    simp only [stepCandidate] at h
    split at h
    · rename_i step hst
      split at h
      · exact absurd h (by simp)
      · rename_i hm
        exact Or.inr (Or.inr (Or.inl ⟨i, step, hst,
          Or.inr (Or.inr (Or.inr (Or.inl ⟨m, rfl, hm, (Option.some.inj h).symm⟩)))⟩))
    · exact absurd h (by simp)
  | addStepWarningOp i m =>
    simp only [stepCandidate] at h
    split at h
    · rename_i step hst
      split at h
      · exact absurd h (by simp)
      · rename_i hm
        exact Or.inr (Or.inr (Or.inl ⟨i, step, hst,
          Or.inr (Or.inr (Or.inr (Or.inr ⟨m, rfl, hm, (Option.some.inj h).symm⟩)))⟩))
    · exact absurd h (by simp)
  | resetStateOp =>
    simp only [stepCandidate] at h
    exact Or.inr (Or.inr (Or.inr ⟨rfl, (Option.some.inj h).symm⟩))

/-! ### C5 — navigation gating of `nextStep` (the spec's `advance()`) -/

/-- C5: `advance()` is a no-op (state, cache and emission history all
unchanged, hence no notification) when the step at `currentStepIndex` is
not completed; when that step is completed and `currentStepIndex < 5` it
increments `currentStepIndex` by exactly one and changes nothing else;
and on a fresh store `completeStep(0)` followed by `advance()` yields
`currentStepIndex = 1`. -/
theorem nextStep_gating (s : Store) :
    (canProceedToNextStep (current s) (current s).currentStep = false → nextStep s = s) ∧
    (canProceedToNextStep (current s) (current s).currentStep = true →
      (current s).currentStep < 5 →
      current (nextStep s) = { current s with currentStep := (current s).currentStep + 1 }) ∧
    (current (runOps [.completeStepOp 0, .nextStepOp] initStore)).currentStep = 1 := by
  refine ⟨?_, ?_, by decide⟩
  · intro h
    simp only [nextStep, applyOp, stepCandidate, h, Bool.false_eq_true, if_false, cacheAfter]
  · intro h _
    have hne : current s ≠ { current s with currentStep := (current s).currentStep + 1 } := by
      intro he
      have : (current s).currentStep = (current s).currentStep + 1 := congrArg MigrationState.currentStep he
      omega
    simp only [nextStep, applyOp, stepCandidate, h, if_true]
    exact current_updateState_of_ne hne

/-- Witness for C5 at concrete stores: a fresh store does not advance
(step 0 incomplete), and after `completeStep(0)` it advances to index 1. -/
theorem nextStep_gating_check :
    nextStep initStore = initStore ∧
    current (nextStep (completeStep 0 initStore)) =
      { current (completeStep 0 initStore) with
        currentStep := (current (completeStep 0 initStore)).currentStep + 1 } :=
  ⟨(nextStep_gating initStore).1 (by decide),
   (nextStep_gating (completeStep 0 initStore)).2.1 (by decide) (by decide)⟩

/-! ### C6 — `reset()` restores the fresh-store snapshot -/

/-- C6: after any sequence of public operations, `reset()` brings the
snapshot back to the snapshot of a freshly constructed store (index 0,
the five fixed steps all incomplete, empty content, no session, default
configuration, idle progress, empty error log) and clears the internal
`stepDataCache` dedup cache. -/
theorem resetState_eq (s : Store) :
    resetState s = updateState getInitialState { s with stepDataCache := fun _ => none } := rfl

theorem resetState_restores (ops : List Op) :
    current (resetState (runOps ops initStore)) = current initStore ∧
    current initStore = getInitialState ∧
    (resetState (runOps ops initStore)).stepDataCache = fun _ => none := by
  have hcur : current { runOps ops initStore with stepDataCache := fun _ => none } =
      current (runOps ops initStore) := rfl
  refine ⟨?_, rfl, ?_⟩
  · by_cases h : current (runOps ops initStore) = getInitialState
    · rw [resetState_eq, updateState_of_eq (by rw [hcur]; exact h), hcur]
      exact h
    · rw [resetState_eq, current_updateState_of_ne (by rw [hcur]; exact h)]
      rfl
  · by_cases h : current (runOps ops initStore) = getInitialState
    · rw [resetState_eq, updateState_of_eq (by rw [hcur]; exact h)]
    · rw [resetState_eq, updateState_of_ne (by rw [hcur]; exact h)]

/-! ### C7 — does `reset()` commit unconditionally? -/

/-- C7 counterexample: on a freshly constructed store (whose state
already equals the default state) `reset()` emits no notification at
all — the emission history still holds exactly the single initial
snapshot, whereas the claim demands a commit with no precondition. -/
theorem resetState_fresh_no_commit :
    (resetState initStore).trace.length = initStore.trace.length ∧
    initStore.trace.length = 1 := by
  constructor <;> decide

/-- C7 amended: `reset()` replaces the state with the fresh default, but
it commits (emits) only when the prior snapshot structurally differs
from the default; when the prior snapshot already equals the default no
notification is produced. -/
theorem resetState_commit_iff (s : Store) :
    (current s = getInitialState → (resetState s).trace = s.trace) ∧
    (current s ≠ getInitialState → (resetState s).trace = getInitialState :: s.trace) := by
  have hcur : current { s with stepDataCache := fun _ => none } = current s := rfl
  constructor
  · intro h
    rw [resetState_eq, updateState_of_eq (by rw [hcur]; exact h)]
  · intro h
    rw [resetState_eq, updateState_of_ne (by rw [hcur]; exact h)]

/-- Witness for C7's amended statement: no commit on a fresh store, one
commit after `completeStep(0)` has changed the state. -/
theorem resetState_commit_iff_check :
    (resetState initStore).trace = initStore.trace ∧
    (resetState (completeStep 0 initStore)).trace =
      getInitialState :: (completeStep 0 initStore).trace :=
  ⟨(resetState_commit_iff initStore).1 (by decide),
   (resetState_commit_iff (completeStep 0 initStore)).2 (by decide)⟩

/-! ### C3 — the step index stays between 0 and 5 -/

theorem stepCandidate_indexOK {cache : Int → Option JsonVal} {st : MigrationState}
    {op : Op} {n : MigrationState} (h : stepCandidate cache st op = some n)
    (hP : IndexOK st) : IndexOK n := by
  obtain ⟨h0, h5, hl⟩ := hP
  rcases stepCandidate_shape h with ⟨_, hg, rfl⟩ | ⟨_, hg, rfl⟩ |
    ⟨i, step, hst, hcase⟩ | ⟨_, rfl⟩
  · obtain ⟨step, hstep, -⟩ := (canProceed_iff st st.currentStep).mp hg
    obtain ⟨hc0, hclt⟩ := stepAt_some hstep
    rw [hl] at hclt
    exact ⟨by dsimp only; omega, by dsimp only; omega, hl⟩
  · exact ⟨by dsimp only; omega, by dsimp only; omega, hl⟩
  · have hlen : ∀ a : StepState, (st.steps.set i.toNat a).length = 5 := by
      intro a; simp [hl]
    rcases hcase with ⟨d, _, _, rfl⟩ | ⟨_, _, rfl⟩ | ⟨p, _, _, rfl⟩ |
      ⟨m, _, _, rfl⟩ | ⟨m, _, _, rfl⟩ <;> exact ⟨h0, h5, hlen _⟩
  · exact ⟨by decide, by decide, by decide⟩

theorem reachable_indexOK (ops : List Op) : IndexOK (current (runOps ops initStore)) :=
  runOps_current_inv ops initStore ⟨by decide, by decide, by decide⟩
    (fun _ _ _ _ hP n hn => stepCandidate_indexOK hn hP)

/-- C3: in every state reachable by public operations the current step
index lies between 0 and 5, and `advance()` at index 5 leaves the store
(state, cache and emission history) unchanged. -/
theorem currentStep_bounded (ops : List Op) :
    0 ≤ (current (runOps ops initStore)).currentStep ∧
    (current (runOps ops initStore)).currentStep ≤ 5 ∧
    ((current (runOps ops initStore)).currentStep = 5 →
      nextStep (runOps ops initStore) = runOps ops initStore) := by
  have hInv := reachable_indexOK ops
  refine ⟨hInv.1, hInv.2.1, ?_⟩
  intro h5
  have hguard : canProceedToNextStep (current (runOps ops initStore))
      (current (runOps ops initStore)).currentStep = false := by
    rw [h5]
    unfold canProceedToNextStep
    rw [stepAt_eq_get (by omega)]
    rw [List.getElem?_eq_none (by rw [hInv.2.2]; decide)]
    rfl
  exact (nextStep_gating _).1 hguard

/-- Witness for C3: completing and advancing through all five steps ends
at index 5, where `advance()` is the identity. -/
theorem currentStep_bounded_check :
    0 ≤ (current (runOps [.completeStepOp 0, .nextStepOp, .completeStepOp 1, .nextStepOp,
      .completeStepOp 2, .nextStepOp, .completeStepOp 3, .nextStepOp,
      .completeStepOp 4, .nextStepOp] initStore)).currentStep ∧
    nextStep (runOps [.completeStepOp 0, .nextStepOp, .completeStepOp 1, .nextStepOp,
      .completeStepOp 2, .nextStepOp, .completeStepOp 3, .nextStepOp,
      .completeStepOp 4, .nextStepOp] initStore) =
      runOps [.completeStepOp 0, .nextStepOp, .completeStepOp 1, .nextStepOp,
      .completeStepOp 2, .nextStepOp, .completeStepOp 3, .nextStepOp,
      .completeStepOp 4, .nextStepOp] initStore :=
  ⟨(currentStep_bounded _).1, (currentStep_bounded _).2.2 (by decide)⟩

/-! ### C4 — completion is monotone without `reset()` -/

theorem stepCandidate_completed {cache : Int → Option JsonVal} {st : MigrationState}
    {op : Op} {n : MigrationState} {i : Int} (hop : op ≠ .resetStateOp)
    (h : stepCandidate cache st op = some n)
    (hc : (stepAt st i).elim false (·.completed) = true) :
    (stepAt n i).elim false (·.completed) = true := by
  rcases stepCandidate_shape h with ⟨_, hg, rfl⟩ | ⟨_, hg, rfl⟩ |
    ⟨j, step, hst, hcase⟩ | ⟨hope, rfl⟩
  · exact hc
  · exact hc
  · cases hsi : stepAt st i with
    | none => rw [hsi] at hc; exact absurd hc (by simp)
    | some stepi =>
      rw [hsi] at hc
      simp only [Option.elim] at hc
      obtain ⟨hi0, hilt⟩ := stepAt_some hsi
      obtain ⟨hj0, hjlt⟩ := stepAt_some hst
      by_cases hij : j.toNat = i.toNat
      · have hsame : step = stepi := by
          have h1 := stepAt_get hst
          have h2 := stepAt_get hsi
          rw [hij] at h1
          rw [h1] at h2
          exact Option.some.inj h2
        subst hsame
        have hget : ∀ a : StepState,
            stepAt { st with steps := st.steps.set j.toNat a } i = some a := by
          intro a
          rw [stepAt_eq_get hi0]
          show (st.steps.set j.toNat a)[i.toNat]? = some a
          rw [← hij]
          rw [List.getElem?_set_self' ]
          rw [stepAt_get hst]
          rfl
        rcases hcase with ⟨d, _, _, rfl⟩ | ⟨_, _, rfl⟩ | ⟨p, _, _, rfl⟩ |
          ⟨m, _, _, rfl⟩ | ⟨m, _, _, rfl⟩ <;>
          simp only [hget, Option.elim] <;> exact hc
      · have hget : ∀ a : StepState,
            stepAt { st with steps := st.steps.set j.toNat a } i = some stepi := by
          intro a
          rw [stepAt_eq_get hi0]
          show (st.steps.set j.toNat a)[i.toNat]? = some stepi
          rw [List.getElem?_set_ne hij]
          exact stepAt_get hsi
        rcases hcase with ⟨d, _, _, rfl⟩ | ⟨_, _, rfl⟩ | ⟨p, _, _, rfl⟩ |
          ⟨m, _, _, rfl⟩ | ⟨m, _, _, rfl⟩ <;>
          simp only [hget, Option.elim] <;> exact hc
  · exact absurd hope hop

/-- C4: along any sequence of public operations that does not contain
`reset()`, a step once completed stays completed (no other operation
ever clears a `completed` flag). -/
theorem completed_monotone (s : Store) (ops : List Op) (i : Int)
    (hno : Op.resetStateOp ∉ ops)
    (h : (stepAt (current s) i).elim false (·.completed) = true) :
    (stepAt (current (runOps ops s)) i).elim false (·.completed) = true := by
  refine runOps_current_inv
    (P := fun st => (stepAt st i).elim false (·.completed) = true) ops s h ?_
  intro cache st op hop hP n hn
  exact stepCandidate_completed (fun he => hno (he ▸ hop)) hn hP

/-- Witness for C4: step 2, completed first, stays completed across
navigation, data, error and progress operations. -/
theorem completed_monotone_check :
    (stepAt (current (runOps [.nextStepOp, .updateStepDataOp 2 (.jstr "cfg"),
        .addStepErrorOp 2 "oops", .updateStepProgressOp 2 40, .previousStepOp]
        (completeStep 2 initStore))) 2).elim false (·.completed) = true :=
  completed_monotone (completeStep 2 initStore) _ 2 (by decide) (by decide)

/-! ### More structural helpers -/

theorem mem_of_stepAt {st : MigrationState} {i : Int} {step : StepState}
    (h : stepAt st i = some step) : step ∈ st.steps := by
  obtain ⟨hlt, he⟩ := List.getElem?_eq_some.mp (stepAt_get h)
  exact he ▸ st.steps.getElem_mem hlt

/-- After any operation the cache is exactly `cacheAfter` of the old one
(committing or not does not touch the cache). -/
theorem applyOp_cache (op : Op) (s : Store) :
    (applyOp op s).stepDataCache = cacheAfter s.stepDataCache op := by
  unfold applyOp
  cases hc : stepCandidate s.stepDataCache (current s) op with
  | none => rfl
  | some n =>
    show (updateState n _).stepDataCache = _
    unfold updateState
    split <;> rfl

theorem applyOp_trace_length (op : Op) (s : Store) :
    (applyOp op s).trace.length ≤ s.trace.length + 1 := by
  rcases applyOp_trace op s with ht | ⟨n, _, ht, _⟩ <;> simp [ht]

theorem stepAt_set_self {st : MigrationState} {i : Int} {step : StepState}
    (h : stepAt st i = some step) (a : StepState) :
    stepAt { st with steps := st.steps.set i.toNat a } i = some a := by
  obtain ⟨hi0, _⟩ := stepAt_some h
  rw [stepAt_eq_get hi0]
  show (st.steps.set i.toNat a)[i.toNat]? = some a
  rw [List.getElem?_set_self', stepAt_get h]
  rfl

/-! ### C8 — per-step error/warning deduplication -/

theorem addStepError_mem {s : Store} {i : Int} {m : String} {step : StepState}
    (hst : stepAt (current s) i = some step) (hm : m ∈ step.errors) :
    addStepError i m s = s := by
  have hc : stepCandidate s.stepDataCache (current s) (.addStepErrorOp i m) = none := by
    simp only [stepCandidate]
    rw [hst]
    simp [hm]
  show applyOp (.addStepErrorOp i m) s = s
  rw [applyOp_none hc]
  rfl

theorem addStepError_commits {s : Store} {i : Int} {m : String} {step : StepState}
    (hst : stepAt (current s) i = some step) (hm : m ∉ step.errors) :
    addStepError i m s =
      { s with trace :=
        { current s with steps :=
          (current s).steps.set i.toNat { step with errors := step.errors ++ [m] } } :: s.trace } := by
  have hc : stepCandidate s.stepDataCache (current s) (.addStepErrorOp i m) =
      some { current s with steps :=
        (current s).steps.set i.toNat { step with errors := step.errors ++ [m] } } := by
    simp only [stepCandidate]
    rw [hst]
    simp [hm]
  have hne : current { s with stepDataCache := cacheAfter s.stepDataCache (.addStepErrorOp i m) } ≠
      { current s with steps :=
        (current s).steps.set i.toNat { step with errors := step.errors ++ [m] } } := by
    intro he
    have h1 : stepAt (current s) i =
        some { step with errors := step.errors ++ [m] } := by
      conv_lhs => rw [show current s = current { s with stepDataCache := cacheAfter s.stepDataCache (.addStepErrorOp i m) } from rfl, he]
      exact stepAt_set_self hst _
    rw [hst] at h1
    have := congrArg (fun o => (o.elim 0 (·.errors.length))) h1
    simp at this
  show applyOp (.addStepErrorOp i m) s = _
  rw [applyOp_some hc, updateState_of_ne hne]
  rfl

theorem addStepError_idem (s : Store) (i : Int) (m : String) :
    addStepError i m (addStepError i m s) = addStepError i m s := by
  cases hst : stepAt (current s) i with
  | none =>
    have h1 : addStepError i m s = s := by
      have hc : stepCandidate s.stepDataCache (current s) (.addStepErrorOp i m) = none := by
        simp only [stepCandidate]
        rw [hst]
      show applyOp (.addStepErrorOp i m) s = s
      rw [applyOp_none hc]
      rfl
    rw [h1]
    exact h1
  | some step =>
    by_cases hm : m ∈ step.errors
    · have h1 := addStepError_mem hst hm
      rw [h1]
      exact h1
    · rw [addStepError_commits hst hm]
      exact addStepError_mem
        (s := { s with trace := _ :: s.trace })
        (stepAt_set_self hst { step with errors := step.errors ++ [m] })
        (by simp)

theorem addStepWarning_mem {s : Store} {i : Int} {m : String} {step : StepState}
    (hst : stepAt (current s) i = some step) (hm : m ∈ step.warnings) :
    addStepWarning i m s = s := by
  have hc : stepCandidate s.stepDataCache (current s) (.addStepWarningOp i m) = none := by
    simp only [stepCandidate]
    rw [hst]
    simp [hm]
  show applyOp (.addStepWarningOp i m) s = s
  rw [applyOp_none hc]
  rfl

theorem addStepWarning_commits {s : Store} {i : Int} {m : String} {step : StepState}
    (hst : stepAt (current s) i = some step) (hm : m ∉ step.warnings) :
    addStepWarning i m s =
      { s with trace :=
        { current s with steps :=
          (current s).steps.set i.toNat { step with warnings := step.warnings ++ [m] } } :: s.trace } := by
  have hc : stepCandidate s.stepDataCache (current s) (.addStepWarningOp i m) =
      some { current s with steps :=
        (current s).steps.set i.toNat { step with warnings := step.warnings ++ [m] } } := by
    simp only [stepCandidate]
    rw [hst]
    simp [hm]
  have hne : current { s with stepDataCache := cacheAfter s.stepDataCache (.addStepWarningOp i m) } ≠
      { current s with steps :=
        (current s).steps.set i.toNat { step with warnings := step.warnings ++ [m] } } := by
    intro he
    have h1 : stepAt (current s) i =
        some { step with warnings := step.warnings ++ [m] } := by
      conv_lhs => rw [show current s = current { s with stepDataCache := cacheAfter s.stepDataCache (.addStepWarningOp i m) } from rfl, he]
      exact stepAt_set_self hst _
    rw [hst] at h1
    have := congrArg (fun o => (o.elim 0 (·.warnings.length))) h1
    simp at this
  show applyOp (.addStepWarningOp i m) s = _
  rw [applyOp_some hc, updateState_of_ne hne]
  rfl

theorem addStepWarning_idem (s : Store) (i : Int) (m : String) :
    addStepWarning i m (addStepWarning i m s) = addStepWarning i m s := by
  cases hst : stepAt (current s) i with
  | none =>
    have h1 : addStepWarning i m s = s := by
      have hc : stepCandidate s.stepDataCache (current s) (.addStepWarningOp i m) = none := by
        simp only [stepCandidate]
        rw [hst]
      show applyOp (.addStepWarningOp i m) s = s
      rw [applyOp_none hc]
      rfl
    rw [h1]
    exact h1
  | some step =>
    by_cases hm : m ∈ step.warnings
    · have h1 := addStepWarning_mem hst hm
      rw [h1]
      exact h1
    · rw [addStepWarning_commits hst hm]
      exact addStepWarning_mem
        (s := { s with trace := _ :: s.trace })
        (stepAt_set_self hst { step with warnings := step.warnings ++ [m] })
        (by simp)

theorem stepCandidate_nodup {cache : Int → Option JsonVal} {st : MigrationState}
    {op : Op} {n : MigrationState} (h : stepCandidate cache st op = some n)
    (hP : ∀ step ∈ st.steps, step.errors.Nodup ∧ step.warnings.Nodup) :
    ∀ step ∈ n.steps, step.errors.Nodup ∧ step.warnings.Nodup := by
  rcases stepCandidate_shape h with ⟨_, _, rfl⟩ | ⟨_, _, rfl⟩ |
    ⟨i, step, hst, hcase⟩ | ⟨_, rfl⟩
  · exact hP
  · exact hP
  · have hmem := mem_of_stepAt hst
    obtain ⟨he, hw⟩ := hP step hmem
    rcases hcase with ⟨d, _, _, rfl⟩ | ⟨_, _, rfl⟩ | ⟨p, _, _, rfl⟩ |
      ⟨m, _, hm, rfl⟩ | ⟨m, _, hm, rfl⟩
    · intro x hx
      rcases List.mem_or_eq_of_mem_set hx with hx | rfl
      · exact hP x hx
      · exact ⟨he, hw⟩
    · intro x hx
      rcases List.mem_or_eq_of_mem_set hx with hx | rfl
      · exact hP x hx
      · exact ⟨he, hw⟩
    · intro x hx
      rcases List.mem_or_eq_of_mem_set hx with hx | rfl
      · exact hP x hx
      · exact ⟨he, hw⟩
    · intro x hx
      rcases List.mem_or_eq_of_mem_set hx with hx | rfl
      · exact hP x hx
      · exact ⟨by simp [List.nodup_append, he, hm], hw⟩
    · intro x hx
      rcases List.mem_or_eq_of_mem_set hx with hx | rfl
      · exact hP x hx
      · exact ⟨he, by simp [List.nodup_append, hw, hm]⟩
  · intro x hx
    fin_cases hx <;> exact ⟨List.nodup_nil, List.nodup_nil⟩

/-- C8: adding an error message already present on a step leaves the
store unchanged, so adding the same message twice appends it exactly
once; the same dedup governs warnings; consequently in every reachable
state no step carries a duplicated error or warning message — and the
spec's concrete scenario holds: two `addStepError(1, "bad creds")` calls
leave exactly one recorded error. -/
theorem addStepError_dedup :
    (∀ (s : Store) (i : Int) (m : String) (step : StepState),
      stepAt (current s) i = some step → m ∈ step.errors → addStepError i m s = s) ∧
    (∀ (s : Store) (i : Int) (m : String),
      addStepError i m (addStepError i m s) = addStepError i m s) ∧
    (∀ (s : Store) (i : Int) (m : String) (step : StepState),
      stepAt (current s) i = some step → m ∈ step.warnings → addStepWarning i m s = s) ∧
    (∀ (s : Store) (i : Int) (m : String),
      addStepWarning i m (addStepWarning i m s) = addStepWarning i m s) ∧
    (∀ ops : List Op, ∀ step ∈ (current (runOps ops initStore)).steps,
      step.errors.Nodup ∧ step.warnings.Nodup) ∧
    ((stepAt (current (runOps [.addStepErrorOp 1 "bad creds", .addStepErrorOp 1 "bad creds"]
      initStore)) 1).elim 0 (·.errors.length) = 1) := by
  refine ⟨fun s i m step hst hm => addStepError_mem hst hm,
          addStepError_idem,
          fun s i m step hst hm => addStepWarning_mem hst hm,
          addStepWarning_idem, ?_, by decide⟩
  intro ops
  exact runOps_current_inv
    (P := fun st => ∀ step ∈ st.steps, step.errors.Nodup ∧ step.warnings.Nodup)
    ops initStore (by intro step hst; fin_cases hst <;> exact ⟨List.nodup_nil, List.nodup_nil⟩)
    (fun _ _ _ _ hP n hn => stepCandidate_nodup hn hP)

/-- Witness for C8 at the spec's own scenario: after one
`addStepError(1, "bad creds")` the second identical call is the
identity. -/
theorem addStepError_dedup_check :
    addStepError 1 "bad creds" (addStepError 1 "bad creds" initStore) =
      addStepError 1 "bad creds" initStore :=
  addStepError_dedup.2.1 initStore 1 "bad creds"

/-! ### C9 — step progress stays within 0..100? -/

/-- C9 counterexample: the service never clamps the argument of
`updateStepProgress`; a single call with 150 yields a reachable state
whose step 0 carries `progress = 150 > 100`. -/
theorem stepProgress_out_of_range :
    (stepAt (current (runOps [.updateStepProgressOp 0 150] initStore)) 0).elim 0
      (·.progress) = 150 ∧
    ¬ ((stepAt (current (runOps [.updateStepProgressOp 0 150] initStore)) 0).elim 0
      (·.progress) ≤ 100) := by
  constructor <;> decide

theorem stepCandidate_progress {cache : Int → Option JsonVal} {st : MigrationState}
    {op : Op} {n : MigrationState} (hok : progressArgOk op = true)
    (h : stepCandidate cache st op = some n)
    (hP : ∀ step ∈ st.steps, 0 ≤ step.progress ∧ step.progress ≤ 100) :
    ∀ step ∈ n.steps, 0 ≤ step.progress ∧ step.progress ≤ 100 := by
  rcases stepCandidate_shape h with ⟨_, _, rfl⟩ | ⟨_, _, rfl⟩ |
    ⟨i, step, hst, hcase⟩ | ⟨_, rfl⟩
  · exact hP
  · exact hP
  · have hmem := mem_of_stepAt hst
    rcases hcase with ⟨d, _, _, rfl⟩ | ⟨_, _, rfl⟩ | ⟨p, hop, _, rfl⟩ |
      ⟨m, _, _, rfl⟩ | ⟨m, _, _, rfl⟩
    · intro x hx
      rcases List.mem_or_eq_of_mem_set hx with hx | rfl
      · exact hP x hx
      · exact hP step hmem
    · intro x hx
      rcases List.mem_or_eq_of_mem_set hx with hx | rfl
      · exact hP x hx
      · exact hP step hmem
    · intro x hx
      rcases List.mem_or_eq_of_mem_set hx with hx | rfl
      · exact hP x hx
      · subst hop
        simp only [progressArgOk, Bool.and_eq_true, decide_eq_true_eq] at hok
        exact hok
    · intro x hx
      rcases List.mem_or_eq_of_mem_set hx with hx | rfl
      · exact hP x hx
      · exact hP step hmem
    · intro x hx
      rcases List.mem_or_eq_of_mem_set hx with hx | rfl
      · exact hP x hx
      · exact hP step hmem
  · intro x hx
    fin_cases hx <;> exact ⟨by decide, by decide⟩

/-- C9 amended: if every `updateStepProgress` call in the sequence uses
an argument within the declared domain `0..100`, then in every reachable
state every step's progress lies in `0..100` (the store itself performs
no clamping: out-of-range arguments are stored verbatim, as the
counterexample shows). -/
theorem stepProgress_bounded_of_args (ops : List Op)
    (hok : ops.all progressArgOk = true) (i : Int) (step : StepState)
    (h : stepAt (current (runOps ops initStore)) i = some step) :
    0 ≤ step.progress ∧ step.progress ≤ 100 := by
  have hP := runOps_current_inv
    (P := fun st => ∀ st' ∈ st.steps, 0 ≤ st'.progress ∧ st'.progress ≤ 100)
    ops initStore
    (by intro st' hst'; fin_cases hst' <;> exact ⟨by decide, by decide⟩)
    (fun _ _ op hop hP n hn =>
      stepCandidate_progress (List.all_eq_true.mp hok op hop) hn hP)
  exact hP step (mem_of_stepAt h)

/-- Witness for C9's amended statement: an in-range progress write keeps
step 0's progress within bounds. -/
theorem stepProgress_bounded_of_args_check :
    0 ≤ ({ id := "content-upload", completed := false, data := JsonVal.jnull
         , errors := [], warnings := [], progress := 50 } : StepState).progress ∧
    ({ id := "content-upload", completed := false, data := JsonVal.jnull
         , errors := [], warnings := [], progress := 50 } : StepState).progress ≤ 100 :=
  stepProgress_bounded_of_args [.updateStepProgressOp 0 50] (by decide) 0 _ (by decide)

/-! ### C2 — deduplication of writes and of emissions -/

/-- C2 counterexample: with the step's payload already structurally
equal to the write (`null` on a fresh store), two consecutive
`setStepData(0, null)` calls produce zero commits, not the exactly one
the claim demands. -/
theorem updateStepData_null_twice_no_commit :
    (runOps [.updateStepDataOp 0 .jnull, .updateStepDataOp 0 .jnull] initStore).trace.length =
      initStore.trace.length ∧
    initStore.trace.length = 1 := by
  constructor <;> decide

theorem updateStepData_cached {s : Store} {i : Int} {d : JsonVal}
    (h : s.stepDataCache i = some d) : updateStepData i d s = s := by
  have hc : stepCandidate s.stepDataCache (current s) (.updateStepDataOp i d) = none := by
    simp [stepCandidate, h]
  show applyOp (.updateStepDataOp i d) s = s
  rw [applyOp_none hc]
  rw [show cacheAfter s.stepDataCache (.updateStepDataOp i d) = s.stepDataCache by
    simp [cacheAfter, h]]

theorem cacheAfter_updateStepData (cache : Int → Option JsonVal) (i : Int) (d : JsonVal) :
    cacheAfter cache (.updateStepDataOp i d) i = some d := by
  by_cases h : cache i = some d <;> simp [cacheAfter, h]

/-- C2 amended: the store indeed never emits two consecutive
structurally equal snapshots, and a repeated `setStepData(i, X)` with a
structurally equal `X` is a no-op — so two consecutive calls commit at
most once (exactly once when the first call changes the stored payload,
zero times when `X` already equals the step's payload, e.g. `null` on a
fresh step). -/
theorem no_duplicate_consecutive_emissions :
    (∀ ops : List Op, ((runOps ops initStore).trace).Chain' (· ≠ ·)) ∧
    (∀ (s : Store) (i : Int) (d : JsonVal),
      updateStepData i d (updateStepData i d s) = updateStepData i d s ∧
      (updateStepData i d s).trace.length ≤ s.trace.length + 1) := by
  constructor
  · intro ops
    exact (runOps_chain ops initStore (by simp [initStore]) (by
      show ([getInitialState] : List MigrationState).Chain' (· ≠ ·)
      exact List.chain'_singleton _)).2
  · intro s i d
    refine ⟨?_, applyOp_trace_length _ _⟩
    apply updateStepData_cached
    rw [show (updateStepData i d s).stepDataCache =
      cacheAfter s.stepDataCache (.updateStepDataOp i d) from applyOp_cache _ s]
    exact cacheAfter_updateStepData s.stepDataCache i d

/-! ### C1 — what `state$` delivers to its subscribers -/

theorem navStepsOk_cons (curr : List StepState) (i : Nat) (step : StepState)
    (rest : List StepState) :
    navStepsOk curr i (step :: rest) =
      ((match curr[i]? with
        | some c => step.completed == c.completed
        | none => false) && navStepsOk curr (i + 1) rest) := rfl

theorem navStepsOk_eq_navStepsOk0 (l₂ : List StepState) (i : Nat) (l₁ : List StepState) :
    navStepsOk l₂ i l₁ = navStepsOk0 (l₂.drop i) l₁ := by
  induction l₁ generalizing i with
  | nil => cases l₂.drop i <;> rfl
  | cons step rest ih =>
    cases hd : l₂.drop i with
    | nil =>
      have hnone : l₂[i]? = none := by
        have := List.getElem?_drop l₂ i 0
        rw [hd] at this
        simpa using this.symm
      rw [navStepsOk_cons, hnone]
      rfl
    | cons c cs =>
      have hsome : l₂[i]? = some c := by
        have := List.getElem?_drop l₂ i 0
        rw [hd] at this
        simpa using this.symm
      have hdrop : l₂.drop (i + 1) = cs := by
        have := List.drop_drop 1 i l₂
        rw [hd] at this
        simpa using this.symm
      rw [navStepsOk_cons, hsome]
      show ((step.completed == c.completed) && navStepsOk l₂ (i + 1) rest) =
        navStepsOk0 (c :: cs) (step :: rest)
      rw [ih (i + 1), hdrop]
      rfl

theorem navStepsOk0_iff (l₂ l₁ : List StepState) (h : l₁.length = l₂.length) :
    navStepsOk0 l₂ l₁ = true ↔
      l₁.map (·.completed) = l₂.map (·.completed) := by
  induction l₁ generalizing l₂ with
  | nil =>
    cases l₂ with
    | nil => exact ⟨fun _ => rfl, fun _ => rfl⟩
    | cons c cs => simp at h
  | cons step rest ih =>
    cases l₂ with
    | nil => simp at h
    | cons c cs =>
      simp only [List.length_cons, Nat.add_right_cancel_iff] at h
      rw [show navStepsOk0 (c :: cs) (step :: rest) =
        ((step.completed == c.completed) && navStepsOk0 cs rest) from rfl]
      simp only [Bool.and_eq_true, beq_iff_eq, List.map_cons, List.cons.injEq]
      rw [ih cs h]

/-- On states whose step arrays have equal length (all reachable states
have five steps), the `state$` comparator is exactly equality of the
navigation projection. -/
theorem navSuppress_iff {a b : MigrationState} (h : a.steps.length = b.steps.length) :
    navSuppress a b = true ↔ navProj a = navProj b := by
  unfold navSuppress navProj
  rw [navStepsOk_eq_navStepsOk0]
  simp only [List.drop_zero, Bool.and_eq_true, beq_iff_eq, navStepsOk0_iff b.steps a.steps h,
    Prod.mk.injEq]

theorem deliverAux_congr {last last' : MigrationState} (l : List MigrationState)
    (hll : last.steps.length = last'.steps.length)
    (hproj : navProj last = navProj last')
    (hl : ∀ x ∈ l, x.steps.length = last.steps.length) :
    deliverAux last l = deliverAux last' l := by
  induction l generalizing last last' with
  | nil => rfl
  | cons x xs ih =>
    have hx : x.steps.length = last.steps.length := hl x (by simp)
    have h1 := navSuppress_iff (a := last) (b := x) hx.symm
    have h2 := navSuppress_iff (a := last') (b := x) (by omega)
    have hsup : navSuppress last x = navSuppress last' x := by
      by_cases hp : navProj last = navProj x
      · rw [h1.mpr hp, h2.mpr (hproj.symm.trans hp)]
      · have e1 : navSuppress last x = false := by
          cases hb : navSuppress last x
          · rfl
          · exact absurd (h1.mp hb) hp
        have e2 : navSuppress last' x = false := by
          cases hb : navSuppress last' x
          · rfl
          · exact absurd (hproj.trans (h2.mp hb)) hp
        rw [e1, e2]
    simp only [deliverAux, ← hsup]
    by_cases hs : navSuppress last x = true
    · simp only [hs, if_true]
      exact ih hll hproj (fun y hy => hl y (by simp [hy]))
    · have hsf : navSuppress last x = false := by
        cases hb : navSuppress last x
        · rfl
        · exact absurd hb hs
      simp only [hsf, Bool.false_eq_true, if_false]

theorem deliverAux_eq_navChanges (last : MigrationState) (l : List MigrationState)
    (hlast : last.steps.length = 5) (hl : ∀ x ∈ l, x.steps.length = 5) :
    deliverAux last l = navChanges last l := by
  induction l generalizing last with
  | nil => rfl
  | cons x xs ih =>
    have hx : x.steps.length = 5 := hl x (by simp)
    have hxs : ∀ y ∈ xs, y.steps.length = 5 := fun y hy => hl y (by simp [hy])
    by_cases hs : navSuppress last x = true
    · have hproj : navProj last = navProj x :=
        (navSuppress_iff (by omega)).mp hs
      have hd1 : deliverAux last (x :: xs) = deliverAux last xs := by
        simp only [deliverAux, hs, if_true]
      have hd2 : navChanges last (x :: xs) = navChanges x xs := by
        simp only [navChanges]
        rw [if_pos hproj.symm]
      rw [hd1, hd2, ← ih x hx hxs]
      exact deliverAux_congr xs (by omega) hproj (fun y hy => by rw [hxs y hy, hlast])
    · have hproj : ¬ navProj x = navProj last := fun he =>
        hs ((navSuppress_iff (by omega)).mpr he.symm)
      have hsf : navSuppress last x = false := by
        cases hb : navSuppress last x
        · rfl
        · exact absurd hb hs
      have hd1 : deliverAux last (x :: xs) = x :: deliverAux x xs := by
        simp only [deliverAux, hsf, Bool.false_eq_true, if_false]
      have hd2 : navChanges last (x :: xs) = x :: navChanges x xs := by
        simp only [navChanges]
        rw [if_neg hproj]
      rw [hd1, hd2, ih x hx hxs]

theorem deliver_eq_navDelivered (l : List MigrationState)
    (hl : ∀ x ∈ l, x.steps.length = 5) : deliver l = navDelivered l := by
  cases l with
  | nil => rfl
  | cons x xs =>
    simp only [deliver, navDelivered]
    exact congrArg (x :: ·)
      (deliverAux_eq_navChanges x xs (hl x (by simp)) (fun y hy => hl y (by simp [hy])))

theorem deliverAux_sublist (last : MigrationState) (l : List MigrationState) :
    (deliverAux last l).Sublist l := by
  induction l generalizing last with
  | nil => exact List.Sublist.refl []
  | cons x xs ih =>
    by_cases hs : navSuppress last x = true
    · simp only [deliverAux, hs, if_true]
      exact (ih last).cons x
    · rw [Bool.not_eq_true] at hs
      simp only [deliverAux, hs, Bool.false_eq_true, if_false]
      exact (ih x).cons₂ x

theorem deliver_sublist (l : List MigrationState) : (deliver l).Sublist l := by
  cases l with
  | nil => exact List.Sublist.refl []
  | cons x xs => exact (deliverAux_sublist x xs).cons₂ x

theorem stepCandidate_len5 {cache : Int → Option JsonVal} {st : MigrationState}
    {op : Op} {n : MigrationState} (h : stepCandidate cache st op = some n)
    (hP : st.steps.length = 5) : n.steps.length = 5 := by
  rcases stepCandidate_shape h with ⟨_, _, rfl⟩ | ⟨_, _, rfl⟩ |
    ⟨i, step, hst, hcase⟩ | ⟨_, rfl⟩
  · exact hP
  · exact hP
  · rcases hcase with ⟨d, _, _, rfl⟩ | ⟨_, _, rfl⟩ | ⟨p, _, _, rfl⟩ |
      ⟨m, _, _, rfl⟩ | ⟨m, _, _, rfl⟩ <;> simpa using hP
  · rfl

theorem reachable_trace_len5 (ops : List Op) :
    (runOps ops initStore).trace ≠ [] ∧
    ∀ st ∈ (runOps ops initStore).trace, st.steps.length = 5 := by
  refine runOps_trace_inv ops initStore (by simp [initStore]) ?_
    (fun _ _ _ _ hP n hn => stepCandidate_len5 hn hP)
  intro st hst
  simp only [initStore, List.mem_singleton] at hst
  rw [hst]
  rfl

/-- C1 counterexample: an observer subscribed to `state$` on a fresh
store misses the commit produced by `addStepError(0, "e")`: the commit
is among the raw subject emissions after subscribing, but
`distinctUntilChanged`'s navigation comparator suppresses it, so the
observer receives only the replayed initial snapshot. -/
theorem data_only_commit_not_delivered :
    current (runOps [.addStepErrorOp 0 "e"] initStore) ∈
      emissionsAfter initStore [.addStepErrorOp 0 "e"] ∧
    (emissionsAfter initStore [.addStepErrorOp 0 "e"]).length = 2 ∧
    current (runOps [.addStepErrorOp 0 "e"] initStore) ∉
      deliver (emissionsAfter initStore [.addStepErrorOp 0 "e"]) := by
  refine ⟨by decide, by decide, by decide⟩

/-- C1 amended: a subscriber of `state$` attached at any reachable store
receives, in commit order (a sublist of the raw emissions), the replayed
snapshot followed by exactly those commits whose current step index or
per-step completion flags differ from the immediately preceding commit;
commits changing only a step's data, errors, warnings or progress are
suppressed. -/
theorem state_delivery (ops₀ ops : List Op) :
    deliver (emissionsAfter (runOps ops₀ initStore) ops) =
      navDelivered (emissionsAfter (runOps ops₀ initStore) ops) ∧
    (deliver (emissionsAfter (runOps ops₀ initStore) ops)).Sublist
      (emissionsAfter (runOps ops₀ initStore) ops) := by
  refine ⟨?_, deliver_sublist _⟩
  apply deliver_eq_navDelivered
  intro x hx
  have hmem : x ∈ (runOps ops (runOps ops₀ initStore)).trace := by
    unfold emissionsAfter at hx
    exact List.mem_reverse.mp (List.mem_of_mem_drop hx)
  rw [← runOps_append] at hmem
  exact (reachable_trace_len5 (ops₀ ++ ops)).2 x hmem

/-! ### C10 — the simulated migration-progress sequence -/

theorem processLoop_nil (T M : Int) (i : Int) (prev : MigrationProgress) :
    processLoop T M [] i prev = [] := rfl

theorem processLoop_cons (T M : Int) (post : ProcessedPost) (rest : List ProcessedPost)
    (i : Int) (prev : MigrationProgress) :
    processLoop T M (post :: rest) i prev =
      simulatePostProcessing post i T M prev ::
        processLoop T M rest (i + 1) (simulatePostProcessing post i T M prev) := rfl

theorem processLoop_length (T M : Int) (posts : List ProcessedPost) (i : Int)
    (prev : MigrationProgress) :
    (processLoop T M posts i prev).length = posts.length := by
  induction posts generalizing i prev with
  | nil => rfl
  | cons post rest ih => rw [processLoop_cons]; simp [ih]

theorem processLoop_status (T M : Int) (posts : List ProcessedPost) (i : Int)
    (prev : MigrationProgress) :
    ∀ snap ∈ processLoop T M posts i prev, snap.status = .processing := by
  induction posts generalizing i prev with
  | nil => intro snap h; rw [processLoop_nil] at h; exact absurd h (by simp)
  | cons post rest ih =>
    intro snap h
    rw [processLoop_cons] at h
    rcases List.mem_cons.mp h with rfl | h
    · rfl
    · exact ih _ _ snap h

theorem processLoop_get (T M : Int) (posts : List ProcessedPost) (i : Int)
    (prev : MigrationProgress) (k : Nat) (hk : k < posts.length) :
    ((processLoop T M posts i prev)[k]?).map (fun p => (p.status, p.currentPost)) =
      some (.processing, i + 1 + (k : Int)) := by
  induction posts generalizing i prev k with
  | nil => simp at hk
  | cons post rest ih =>
    rw [processLoop_cons]
    cases k with
    | zero => simp [simulatePostProcessing]
    | succ k' =>
      rw [List.getElem?_cons_succ]
      rw [ih (i + 1) (simulatePostProcessing post i T M prev) k' (by simpa using hk)]
      congr 2
      push_cast
      ring

/-- The emission list of `startMigration(posts)`, named. -/
theorem startMigrationEmits_eq (posts : List ProcessedPost) :
    startMigrationEmits posts =
      startSnap posts :: (processBody posts ++ [completedSnap posts]) := rfl

/-- Exactly-one-`starting` count for a sequence of the shape produced by
`startMigration`. -/
theorem filter_starting_length (a b c : MigrationProgress) (body : List MigrationProgress)
    (ha : (a.status == ProgressStatus.starting) = false)
    (hb : (b.status == ProgressStatus.starting) = true)
    (hc : (c.status == ProgressStatus.starting) = false)
    (hbody : ∀ x ∈ body, x.status = .processing) :
    ((a :: b :: (body ++ [c])).filter (fun p => p.status == ProgressStatus.starting)).length
      = 1 := by
  have hN : body.filter (fun p => p.status == ProgressStatus.starting) = [] :=
    List.filter_eq_nil_iff.mpr (fun x hx => by rw [hbody x hx]; decide)
  simp only [List.filter_cons, List.filter_append, ha, hb, hc, hN, List.filter_nil,
    Bool.false_eq_true, if_false, if_true]
  rfl

theorem getLast_of_shape (a b c : MigrationProgress) (body : List MigrationProgress) :
    (a :: b :: (body ++ [c])).getLast? = some c := by
  rw [show a :: b :: (body ++ [c]) = (a :: b :: body) ++ [c] by simp]
  exact List.getLast?_concat _

/-- C10: for every list of prepared posts, the progress sequence driven
by `startMigration` starts from the replayed idle snapshot, contains
exactly one `starting` snapshot, then one `processing` update for the
k-th post reporting `currentPost = k` (at position `k + 1` of the
sequence) for every `1 ≤ k ≤ n`, and ends with a `completed` snapshot
whose `currentPost` and `totalPosts` both equal `n`. -/
theorem startMigration_progress (posts : List ProcessedPost) :
    (migrationTrace posts).head? = some initialProgress ∧
    initialProgress.status = .idle ∧
    ((migrationTrace posts).filter (fun p => p.status == ProgressStatus.starting)).length = 1 ∧
    (∀ k : Nat, 1 ≤ k → k ≤ posts.length →
      ((migrationTrace posts)[k + 1]?).map (fun p => (p.status, p.currentPost)) =
        some (.processing, (k : Int))) ∧
    ((migrationTrace posts).getLast?).map
        (fun p => (p.status, p.currentPost, p.totalPosts)) =
      some (.completed, (posts.length : Int), (posts.length : Int)) := by
  refine ⟨rfl, rfl, ?_, ?_, ?_⟩
  · rw [migrationTrace, startMigrationEmits_eq]
    exact filter_starting_length _ _ _ _ rfl rfl rfl
      (fun x hx => processLoop_status _ _ posts 0 _ x hx)
  · intro k hk1 hkn
    obtain ⟨k', rfl⟩ : ∃ k', k = k' + 1 := ⟨k - 1, by omega⟩
    rw [migrationTrace, startMigrationEmits_eq]
    rw [List.getElem?_cons_succ, List.getElem?_cons_succ]
    rw [show processBody posts =
      processLoop (posts.length : Int) (totalMediaOf posts) posts 0 (startSnap posts)
      from rfl]
    rw [List.getElem?_append]
    rw [if_pos (by rw [processLoop_length]; omega)]
    rw [processLoop_get _ _ posts 0 _ k' (by omega)]
    congr 2
    push_cast
    ring
  · rw [migrationTrace, startMigrationEmits_eq, getLast_of_shape]
    rfl

/-- Witness for C10 on the one-post list `[samplePost]`: the k = 1
processing update and the closed conjuncts, instantiated. -/
theorem startMigration_progress_check :
    ((migrationTrace [samplePost]).filter
      (fun p => p.status == ProgressStatus.starting)).length = 1 ∧
    ((migrationTrace [samplePost])[2]?).map (fun p => (p.status, p.currentPost)) =
      some (.processing, (1 : Int)) ∧
    ((migrationTrace [samplePost]).getLast?).map
        (fun p => (p.status, p.currentPost, p.totalPosts)) =
      some (.completed, (1 : Int), (1 : Int)) :=
  ⟨(startMigration_progress [samplePost]).2.2.1,
   (startMigration_progress [samplePost]).2.2.2.1 1 (by decide) (by decide),
   (startMigration_progress [samplePost]).2.2.2.2⟩

end Migration
